import Mathlib

/-!
Verification of the cloak directory-encryption core
(internal/cloak/cloak.go) against its specification.

Shallow embedding conventions:
- Go byte slices are `List Nat` (each element a byte value).
- Go strings are Lean `String`; the byte-level operations of the source
  (prefix tests, path cleaning) are defined on the underlying `List Char`,
  which agrees with byte order for the ASCII characters the checks use.
- Fallible Go functions return `Except String` carrying the exact error
  message the source constructs.
- External libraries that the source calls but whose code is not part of
  this repository (golang.org/x/crypto/argon2, crypto/cipher GCM,
  archive/tar + compress/gzip) are abstracted as structures bundling the
  function with the documented contract the source relies on; every
  theorem quantifies over an arbitrary implementation of the contract and
  concrete mock implementations witness satisfiability.
-/

namespace Cloak

/-- `MagicBytes = "CLOAK01"` (cloak.go line 27), as its byte values. -/
def magicBytes : List Nat := [67, 76, 79, 65, 75, 48, 49]

/-- `SaltSize` (cloak.go line 30). -/
def SaltSize : Nat := 32

/-- `NonceSize` (cloak.go line 33). -/
def NonceSize : Nat := 12

/-- `KeySize` (cloak.go line 36). -/
def KeySize : Nat := 32

/-- `argonTime` (cloak.go line 39). -/
def argonTime : Nat := 3

/-- `argonMemory` (cloak.go line 40). -/
def argonMemory : Nat := 64 * 1024

/-- `argonThreads` (cloak.go line 41). -/
def argonThreads : Nat := 4

/-- `headerSize := len(MagicBytes) + SaltSize + NonceSize + 8` (cloak.go line 381). -/
def headerSize : Nat := magicBytes.length + SaltSize + NonceSize + 8

/-- `binary.BigEndian.PutUint64` (cloak.go line 352): the 8 big-endian bytes
of the low 64 bits of `n`. -/
def beBytes8 (n : Nat) : List Nat :=
  [n / 2 ^ 56 % 256, n / 2 ^ 48 % 256, n / 2 ^ 40 % 256, n / 2 ^ 32 % 256,
   n / 2 ^ 24 % 256, n / 2 ^ 16 % 256, n / 2 ^ 8 % 256, n % 256]

/-- `binary.BigEndian.Uint64` (cloak.go line 397): big-endian value of a byte
list (each element taken mod 256, as the Go byte type enforces). -/
def beVal8 (l : List Nat) : Nat := l.foldl (fun a b => a * 256 + b % 256) 0

/-- The container decoding steps of `Decrypt` (cloak.go lines 381-404):
header-size check, magic check, field slicing, declared-length check.
Error strings are the ones the source constructs. -/
def decodeContainer (data : List Nat) : Except String (List Nat × List Nat × List Nat) :=
  if data.length < headerSize then
    Except.error "invalid file: too small to be a valid encrypted file"
  else if data.take magicBytes.length ≠ magicBytes then
    Except.error "invalid file: not a valid .cloak file"
  else if (data.drop headerSize).length
      ≠ beVal8 ((data.drop (magicBytes.length + SaltSize + NonceSize)).take 8) then
    Except.error "invalid file: size mismatch, file may be corrupted"
  else
    Except.ok ((data.drop magicBytes.length).take SaltSize,
      (data.drop (magicBytes.length + SaltSize)).take NonceSize,
      data.drop headerSize)

/-- The container writing steps of `Encrypt` (cloak.go lines 341-358): the
five `Write` calls emit, in order, magic, salt, nonce, the ciphertext length
as `uint64` big-endian, and the ciphertext. -/
def encodeContainer (salt nonce ciphertext : List Nat) : List Nat :=
  magicBytes ++ salt ++ nonce ++ beBytes8 (ciphertext.length % 2 ^ 64) ++ ciphertext

/-- `SecureBytes` (cloak.go lines 44-47): the backing array contents plus
whether `Data` is still attached (non-nil). -/
structure SecureBytes where
  buf : List Nat
  attached : Bool

/-- `SecureBytes.Wipe` (cloak.go lines 50-58): when `Data` is non-nil, zero
every byte and set `Data = nil`; otherwise do nothing. -/
def SecureBytes.Wipe (s : SecureBytes) : SecureBytes :=
  if s.attached then { buf := List.replicate s.buf.length 0, attached := false } else s

/-- The external `golang.org/x/crypto/argon2` library, abstracted.
`idKey password salt time memory threads keyLen` stands for `argon2.IDKey`;
the documented contract the source relies on is that it is a pure function
of its arguments returning exactly `keyLen` bytes, with no error path. -/
structure Argon2 where
  idKey : List Nat → List Nat → Nat → Nat → Nat → Nat → List Nat
  idKey_len : ∀ p s t m th kl, (idKey p s t m th kl).length = kl

/-- `DeriveKey` (cloak.go lines 84-87): Argon2id with the package constants. -/
def DeriveKey (A : Argon2) (password salt : List Nat) : List Nat :=
  A.idKey password salt argonTime argonMemory argonThreads KeySize

/-- The external `crypto/aes` + `crypto/cipher` GCM AEAD, abstracted.
`sealOp key nonce plaintext` stands for `gcm.Seal(nil, nonce, plaintext, nil)`
and `openOp key nonce ciphertext` for `gcm.Open(nil, nonce, ciphertext, nil)`.
The contracts the source relies on: opening a sealed value with the same
32-byte key and 12-byte nonce returns the plaintext, and opening succeeds
only on values that sealing produces for that key and nonce (the
authentication guarantee). Faithful for 12-byte nonces, the only length
this program ever passes. -/
structure AEAD where
  sealOp : List Nat → List Nat → List Nat → List Nat
  openOp : List Nat → List Nat → List Nat → Option (List Nat)
  openOp_sealOp : ∀ k n p, k.length = 32 → n.length = 12 → openOp k n (sealOp k n p) = some p
  openOp_sound : ∀ k n c p, openOp k n c = some p → c = sealOp k n p

/-- `aes.NewCipher` (called at cloak.go lines 232 and 248) succeeds exactly
for 16-, 24- or 32-byte keys. -/
def validKeyLen (k : List Nat) : Bool :=
  decide (k.length = 16) || decide (k.length = 24) || decide (k.length = 32)

/-- `EncryptData` (cloak.go lines 231-244). -/
def EncryptData (G : AEAD) (plaintext key nonce : List Nat) : Except String (List Nat) :=
  if validKeyLen key then Except.ok (G.sealOp key nonce plaintext)
  else Except.error "failed to create AES cipher: crypto/aes: invalid key size"

/-- `DecryptData` (cloak.go lines 247-264): every authentication failure of
`gcm.Open` is collapsed to the one fixed error string. -/
def DecryptData (G : AEAD) (ciphertext key nonce : List Nat) : Except String (List Nat) :=
  if validKeyLen key then
    match G.openOp key nonce ciphertext with
    | some p => Except.ok p
    | none => Except.error "decryption failed: invalid password or corrupted file"
  else Except.error "failed to create AES cipher: crypto/aes: invalid key size"

/-- A concrete mock Argon2 implementation (witness instance only). -/
def mockArgon : Argon2 where
  idKey := fun _ _ _ _ _ kl => List.replicate kl 0
  idKey_len := fun _ _ _ _ _ kl => List.length_replicate kl 0

/-- Mock sealing: prefix the key and nonce to the plaintext (injective, so
the authentication contract holds; witness instance only). -/
def mockSeal (k n p : List Nat) : List Nat := k ++ n ++ p

/-- Mock opening: check the 44-byte key-nonce prefix, return the rest. -/
def mockOpen (k n c : List Nat) : Option (List Nat) :=
  if k.length = 32 ∧ n.length = 12 ∧ c.take 44 = k ++ n then some (c.drop 44) else none

theorem mockOpen_mockSeal (k n p : List Nat) (hk : k.length = 32) (hn : n.length = 12) :
    mockOpen k n (mockSeal k n p) = some p := by
  have hlen : (k ++ n).length = 44 := by simp [hk, hn]
  have htake : (k ++ n ++ p).take 44 = k ++ n := by
    rw [show k ++ n ++ p = (k ++ n) ++ p from rfl, ← hlen, List.take_left]
  have hdrop : (k ++ n ++ p).drop 44 = p := by
    rw [show k ++ n ++ p = (k ++ n) ++ p from rfl, ← hlen, List.drop_left]
  unfold mockOpen mockSeal
  rw [if_pos ⟨hk, hn, htake⟩, hdrop]

theorem mockOpen_sound (k n c p : List Nat) (h : mockOpen k n c = some p) :
    c = mockSeal k n p := by
  unfold mockOpen at h
  split at h
  · rename_i hcond
    obtain ⟨hk, hn, hpre⟩ := hcond
    have hp : c.drop 44 = p := Option.some.inj h
    rw [mockSeal, show k ++ n ++ p = (k ++ n) ++ p from rfl, ← hpre, ← hp,
      List.take_append_drop]
  · exact absurd h (by simp)

/-- A concrete mock AEAD implementation (witness instance only). -/
def mockAEAD : AEAD where
  sealOp := mockSeal
  openOp := mockOpen
  openOp_sealOp := mockOpen_mockSeal
  openOp_sound := mockOpen_sound

set_option maxHeartbeats 1000000 in
theorem beVal8_beBytes8 (n : Nat) (h : n < 2 ^ 64) : beVal8 (beBytes8 n) = n := by
  have h64 : n < 18446744073709551616 := by
    rw [show (18446744073709551616 : Nat) = 2 ^ 64 from by norm_num]
    exact h
  simp only [beVal8, beBytes8, List.foldl]
  norm_num
  omega

/-- `decodeContainer` with the constant arithmetic reduced. -/
theorem decodeContainer_eq (data : List Nat) :
    decodeContainer data =
      if data.length < 59 then
        Except.error "invalid file: too small to be a valid encrypted file"
      else if data.take 7 ≠ magicBytes then
        Except.error "invalid file: not a valid .cloak file"
      else if (data.drop 59).length ≠ beVal8 ((data.drop 51).take 8) then
        Except.error "invalid file: size mismatch, file may be corrupted"
      else
        Except.ok ((data.drop 7).take 32, (data.drop 39).take 12, data.drop 59) := rfl

/-- C4: decoding a container fails with a format error if and only if the
data is shorter than the 59-byte header, or the first 7 bytes are not the
magic literal, or the declared big-endian length differs from the actual
byte count after the header; otherwise it returns the salt (bytes 7..39),
nonce (bytes 39..51) and ciphertext (bytes from 59). -/
theorem decode_error_iff (data : List Nat) :
    ((∃ e, decodeContainer data = Except.error e) ↔
      (data.length < 59 ∨ data.take 7 ≠ magicBytes ∨
        (data.drop 59).length ≠ beVal8 ((data.drop 51).take 8)))
    ∧ (¬ (data.length < 59 ∨ data.take 7 ≠ magicBytes ∨
        (data.drop 59).length ≠ beVal8 ((data.drop 51).take 8)) →
      decodeContainer data
        = Except.ok ((data.drop 7).take 32, (data.drop 39).take 12, data.drop 59)) := by
  rw [decodeContainer_eq]
  constructor
  · constructor
    · intro ⟨e, he⟩
      by_contra hno
      push_neg at hno
      obtain ⟨h1, h2, h3⟩ := hno
      rw [if_neg (by omega), if_neg (not_not_intro h2), if_neg (not_not_intro h3)] at he
      exact absurd he (by simp)
    · intro h
      rcases h with h | h | h
      · exact ⟨"invalid file: too small to be a valid encrypted file", if_pos h⟩
      · by_cases h1 : data.length < 59
        · exact ⟨"invalid file: too small to be a valid encrypted file", if_pos h1⟩
        · exact ⟨"invalid file: not a valid .cloak file", by rw [if_neg h1, if_pos h]⟩
      · by_cases h1 : data.length < 59
        · exact ⟨"invalid file: too small to be a valid encrypted file", if_pos h1⟩
        · by_cases h2 : data.take 7 = magicBytes
          · exact ⟨"invalid file: size mismatch, file may be corrupted",
              by rw [if_neg h1, if_neg (not_not_intro h2), if_pos h]⟩
          · exact ⟨"invalid file: not a valid .cloak file", by rw [if_neg h1, if_pos h2]⟩
  · intro hno
    push_neg at hno
    obtain ⟨h1, h2, h3⟩ := hno
    rw [if_neg (by omega), if_neg (not_not_intro h2), if_neg (not_not_intro h3)]

/-- Witness for C4 at a concrete input: the empty byte list is rejected. -/
theorem decode_error_iff_witness : ∃ e, decodeContainer [] = Except.error e :=
  (decode_error_iff []).1.mpr (Or.inl (by decide))

/-- C5: the encoder emits exactly magic ++ salt ++ nonce ++ 8-byte
big-endian length ++ ciphertext, the result has length 59 + n, and decoding
recovers the original salt, nonce and ciphertext. -/
theorem encode_layout (salt nonce ct : List Nat)
    (hs : salt.length = 32) (hn : nonce.length = 12) (hc : ct.length < 2 ^ 64) :
    encodeContainer salt nonce ct = magicBytes ++ salt ++ nonce ++ beBytes8 ct.length ++ ct
    ∧ (encodeContainer salt nonce ct).length = 59 + ct.length
    ∧ decodeContainer (encodeContainer salt nonce ct) = Except.ok (salt, nonce, ct) := by
  have hmod : ct.length % 2 ^ 64 = ct.length := Nat.mod_eq_of_lt hc
  have hbe : (beBytes8 ct.length).length = 8 := by simp [beBytes8]
  have hlayout : encodeContainer salt nonce ct
      = magicBytes ++ salt ++ nonce ++ beBytes8 ct.length ++ ct := by
    rw [encodeContainer, hmod]
  have hlen : (encodeContainer salt nonce ct).length = 59 + ct.length := by
    rw [hlayout]
    simp only [List.length_append, hs, hn, hbe]
    rw [show magicBytes.length = 7 from rfl]
  refine ⟨hlayout, hlen, ?_⟩
  have htail : encodeContainer salt nonce ct
      = magicBytes ++ (salt ++ (nonce ++ (beBytes8 ct.length ++ ct))) := by
    rw [hlayout, List.append_assoc, List.append_assoc, List.append_assoc]
  have hdrop7 : (encodeContainer salt nonce ct).drop 7
      = salt ++ (nonce ++ (beBytes8 ct.length ++ ct)) := by
    rw [htail, show (7 : Nat) = magicBytes.length from rfl, List.drop_left]
  have hdrop39 : (encodeContainer salt nonce ct).drop 39
      = nonce ++ (beBytes8 ct.length ++ ct) := by
    rw [show (39 : Nat) = 7 + 32 from rfl, ← List.drop_drop, hdrop7, ← hs, List.drop_left]
  have hdrop51 : (encodeContainer salt nonce ct).drop 51
      = beBytes8 ct.length ++ ct := by
    rw [show (51 : Nat) = 39 + 12 from rfl, ← List.drop_drop, hdrop39, ← hn, List.drop_left]
  have hdrop59 : (encodeContainer salt nonce ct).drop 59 = ct := by
    rw [show (59 : Nat) = 51 + 8 from rfl, ← List.drop_drop, hdrop51, ← hbe, List.drop_left]
  have htake7 : (encodeContainer salt nonce ct).take 7 = magicBytes := by
    rw [htail, show (7 : Nat) = magicBytes.length from rfl, List.take_left]
  have htakesalt : ((encodeContainer salt nonce ct).drop 7).take 32 = salt := by
    rw [hdrop7, ← hs, List.take_left]
  have htakenonce : ((encodeContainer salt nonce ct).drop 39).take 12 = nonce := by
    rw [hdrop39, ← hn, List.take_left]
  have htakelen : ((encodeContainer salt nonce ct).drop 51).take 8 = beBytes8 ct.length := by
    rw [hdrop51, ← hbe, List.take_left]
  rw [decodeContainer_eq, if_neg (by omega),
    if_neg (not_not_intro htake7),
    if_neg (not_not_intro (by rw [hdrop59, htakelen, beVal8_beBytes8 ct.length hc])),
    htakesalt, htakenonce, hdrop59]

/-- Witness for C5 at concrete salt, nonce and ciphertext. -/
theorem encode_layout_witness :
    decodeContainer (encodeContainer (List.replicate 32 1) (List.replicate 12 2) [5, 6])
      = Except.ok (List.replicate 32 1, List.replicate 12 2, [5, 6]) :=
  (encode_layout (List.replicate 32 1) (List.replicate 12 2) [5, 6]
    (by decide) (by decide) (by decide)).2.2

/-- C8: Wipe detaches the buffer, zeroes every held byte (preserving the
byte count of the backing array), and a second Wipe is a no-op leaving the
state exactly as after the first. -/
theorem wipe_spec (s : SecureBytes) :
    (s.Wipe).attached = false
    ∧ (s.attached = true → ∀ b ∈ (s.Wipe).buf, b = 0)
    ∧ (s.Wipe).buf.length = s.buf.length
    ∧ (s.Wipe).Wipe = s.Wipe := by
  cases s with
  | mk buf attached =>
    cases attached with
    | false => simp [SecureBytes.Wipe]
    | true =>
      refine ⟨by simp [SecureBytes.Wipe], ?_, by simp [SecureBytes.Wipe], ?_⟩
      · intro _ b hb
        rw [SecureBytes.Wipe, if_pos rfl] at hb
        exact List.eq_of_mem_replicate hb
      · simp [SecureBytes.Wipe]

/-- Witness for C8 at a concrete buffer. -/
theorem wipe_spec_witness :
    (SecureBytes.Wipe ⟨[3, 4], true⟩).attached = false
    ∧ ∀ b ∈ (SecureBytes.Wipe ⟨[3, 4], true⟩).buf, b = 0 :=
  ⟨(wipe_spec ⟨[3, 4], true⟩).1, (wipe_spec ⟨[3, 4], true⟩).2.1 rfl⟩

/-- C6: key derivation is a pure function (repeated calls agree), returns
exactly 32 bytes, and is the memory-hard function applied with the fixed
parameters 3 iterations, 64 MiB, 4-way parallelism, 32-byte output. -/
theorem deriveKey_spec (A : Argon2) (password salt : List Nat) :
    (DeriveKey A password salt).length = 32
    ∧ DeriveKey A password salt = DeriveKey A password salt
    ∧ DeriveKey A password salt = A.idKey password salt 3 (64 * 1024) 4 32 := by
  refine ⟨?_, rfl, rfl⟩
  exact A.idKey_len password salt argonTime argonMemory argonThreads KeySize

/-- Witness for C6 with the mock Argon2 implementation. -/
theorem deriveKey_spec_witness : (DeriveKey mockArgon [1] [2]).length = 32 :=
  (deriveKey_spec mockArgon [1] [2]).1

/-- C2: for a 32-byte key and 12-byte nonce, any ciphertext that is not an
authentic seal under that key and nonce — which covers every bit-level
corruption of a genuine ciphertext and every ciphertext sealed under a
different key — makes DecryptData return exactly the single generic error
string, and never any plaintext. -/
theorem decryptData_fails_closed (G : AEAD) (key nonce ct : List Nat)
    (hk : key.length = 32) (hn : nonce.length = 12)
    (hbad : ∀ p, ct ≠ G.sealOp key nonce p) :
    DecryptData G ct key nonce
      = Except.error "decryption failed: invalid password or corrupted file" := by
  have hvalid : validKeyLen key = true := by simp [validKeyLen, hk]
  unfold DecryptData
  rw [if_pos hvalid]
  cases h : G.openOp key nonce ct with
  | none => rfl
  | some p => exact absurd (G.openOp_sound key nonce ct p h) (hbad p)

/-- Witness for C2: a 1-byte ciphertext cannot be a mock seal (those have at
least 44 bytes), so decryption fails with the generic error. -/
theorem decryptData_fails_closed_witness :
    DecryptData mockAEAD [9] (List.replicate 32 0) (List.replicate 12 0)
      = Except.error "decryption failed: invalid password or corrupted file" :=
  decryptData_fails_closed mockAEAD (List.replicate 32 0) (List.replicate 12 0) [9]
    (by decide) (by decide)
    (by
      intro p h
      have hlen := congrArg List.length h
      simp [mockAEAD, mockSeal] at hlen)

/-! ## Path handling (path/filepath on Unix)

`filepath.Clean`, `filepath.IsAbs`, `filepath.Join`, `filepath.Dir` and
`strings.HasPrefix` as used by `ExtractArchive` (cloak.go lines 186-191)
and `Decrypt` (line 428), modelled on the underlying character list of the
Lean string. -/

/-- Split a character list at every separator, keeping empty components,
matching the element decomposition that Go path cleaning performs. -/
def splitSlash : List Char → List (List Char)
  | [] => [[]]
  | c :: rest =>
    if c = '/' then [] :: splitSlash rest
    else
      match splitSlash rest with
      | h :: t => (c :: h) :: t
      | [] => [[c]]

/-- Join components with the separator (inverse of `splitSlash`). -/
def joinComps : List (List Char) → List Char
  | [] => []
  | [c] => c
  | c :: c2 :: rest => c ++ '/' :: joinComps (c2 :: rest)

theorem splitSlash_cons_slash (rest : List Char) :
    splitSlash ('/' :: rest) = [] :: splitSlash rest := by
  simp [splitSlash]

theorem splitSlash_ne_nil (l : List Char) : splitSlash l ≠ [] := by
  cases l with
  | nil => simp [splitSlash]
  | cons c rest =>
    by_cases h : c = '/'
    · subst h
      rw [splitSlash_cons_slash]
      simp
    · simp only [splitSlash, if_neg h]
      cases splitSlash rest with
      | nil => simp
      | cons a b => simp

theorem splitSlash_cons_other (c : Char) (rest : List Char) (h : c ≠ '/')
    (x : List Char) (y : List (List Char)) (hs : splitSlash rest = x :: y) :
    splitSlash (c :: rest) = (c :: x) :: y := by
  simp only [splitSlash, if_neg h, hs]

theorem joinComps_pair (a b : List Char) (t : List (List Char)) :
    joinComps (a :: b :: t) = a ++ '/' :: joinComps (b :: t) := rfl

theorem joinComps_splitSlash (l : List Char) : joinComps (splitSlash l) = l := by
  induction l with
  | nil => rfl
  | cons c rest ih =>
    cases hs : splitSlash rest with
    | nil => exact absurd hs (splitSlash_ne_nil rest)
    | cons a b =>
      rw [hs] at ih
      by_cases h : c = '/'
      · subst h
        rw [splitSlash_cons_slash, hs, joinComps_pair, ih]
        rfl
      · rw [splitSlash_cons_other c rest h a b hs]
        cases b with
        | nil =>
          show joinComps [c :: a] = c :: rest
          show c :: a = c :: rest
          rw [show joinComps [a] = a from rfl] at ih
          rw [ih]
        | cons b1 b2 =>
          rw [joinComps_pair] at ih
          rw [joinComps_pair, List.cons_append, ih]

theorem splitSlash_append (a b : List Char) :
    splitSlash (a ++ '/' :: b) = splitSlash a ++ splitSlash b := by
  induction a with
  | nil =>
    show splitSlash ('/' :: b) = splitSlash [] ++ splitSlash b
    rw [splitSlash_cons_slash]
    rfl
  | cons c rest ih =>
    show splitSlash (c :: (rest ++ '/' :: b)) = splitSlash (c :: rest) ++ splitSlash b
    by_cases h : c = '/'
    · subst h
      rw [splitSlash_cons_slash, splitSlash_cons_slash, ih]
      rfl
    · cases hs : splitSlash rest with
      | nil => exact absurd hs (splitSlash_ne_nil rest)
      | cons x y =>
        have hs2 : splitSlash (rest ++ '/' :: b) = x :: (y ++ splitSlash b) := by
          rw [ih, hs]
          rfl
        rw [splitSlash_cons_other c _ h _ _ hs2, splitSlash_cons_other c _ h _ _ hs]
        rfl

/-- The element processing loop of Go `path.Clean` (Plan 9 cleanname):
skip empty and dot elements, resolve dot-dot against the output stack
(dropping it at the root when rooted, keeping it when unrooted), push
everything else. The stack holds components in reverse order. -/
def cleanLoop (rooted : Bool) : List (List Char) → List (List Char) → List (List Char)
  | [], stack => stack
  | e :: rest, stack =>
    if e = [] ∨ e = ['.'] then cleanLoop rooted rest stack
    else if e = ['.', '.'] then
      match stack with
      | top :: stk =>
        if top = ['.', '.'] then cleanLoop rooted rest (e :: top :: stk)
        else cleanLoop rooted rest stk
      | [] => if rooted then cleanLoop rooted rest [] else cleanLoop rooted rest [e]
    else cleanLoop rooted rest (e :: stack)

/-- `filepath.Clean` on Unix, on the character list: empty input becomes
a dot, a rooted result keeps its leading separator, an empty unrooted
result becomes a dot. -/
def cleanCore (l : List Char) : List Char :=
  if l = [] then ['.']
  else
    if l.head? = some '/' then
      '/' :: joinComps (cleanLoop true (splitSlash l) []).reverse
    else if (cleanLoop false (splitSlash l) []).reverse = [] then ['.']
    else joinComps (cleanLoop false (splitSlash l) []).reverse

/-- `filepath.Clean` (called at cloak.go line 186). -/
def filepathClean (s : String) : String := ⟨cleanCore s.data⟩

/-- `strings.HasPrefix` (called at cloak.go line 187); byte order and
character order agree for the ASCII prefix it is used with. -/
def hasPrefixStr (s pre : String) : Bool := pre.data.isPrefixOf s.data

/-- `filepath.IsAbs` on Unix (called at cloak.go line 187). -/
def isAbsPath (s : String) : Bool := s.data.head? == some '/'

/-- `filepath.Join` on Unix for two elements (called at cloak.go line 191):
empty elements are skipped, the rest joined with a separator, then cleaned. -/
def joinPath (a b : String) : String :=
  if a.data = [] then (if b.data = [] then ⟨[]⟩ else filepathClean b)
  else if b.data = [] then filepathClean a
  else filepathClean (a ++ "/" ++ b)

/-- Keep everything up to and including the final separator (the slice
`path[:i+1]` that `filepath.Dir` cleans). -/
def dirSlice (l : List Char) : List Char :=
  ((l.reverse.dropWhile (fun c => !(c == '/')))).reverse

/-- `filepath.Dir` on Unix (called at cloak.go lines 200, 216 and 428). -/
def parentDir (s : String) : String := ⟨cleanCore (dirSlice s.data)⟩

/-- One path component that is an ordinary name: nonempty, not dot or
dot-dot, and free of separators. -/
def validName (n : List Char) : Bool :=
  !n.isEmpty && decide (n ≠ ['.']) && decide (n ≠ ['.', '.']) && !n.contains '/'

/-- Every separator-delimited component of the list is an ordinary name. -/
def validJoinL (l : List Char) : Bool := (splitSlash l).all validName

/-- The cleaned path starts with the two characters dot-dot. -/
def startsDD (l : List Char) : Bool := List.isPrefixOf ['.', '.'] l

/-- An absolute, already-clean directory string other than the root:
a separator followed by ordinary name components. -/
def absCleanDir (s : String) : Bool :=
  (s.data.head? == some '/') && validJoinL s.data.tail

theorem cleanLoop_skip (r : Bool) (e : List Char) (rest stack : List (List Char))
    (h : e = [] ∨ e = ['.']) :
    cleanLoop r (e :: rest) stack = cleanLoop r rest stack := by
  simp only [cleanLoop]
  rw [if_pos h]

theorem cleanLoop_push (r : Bool) (e : List Char) (rest stack : List (List Char))
    (h1 : ¬ (e = [] ∨ e = ['.'])) (h2 : e ≠ ['.', '.']) :
    cleanLoop r (e :: rest) stack = cleanLoop r rest (e :: stack) := by
  simp only [cleanLoop]
  rw [if_neg h1, if_neg h2]

theorem validName_push (e : List Char) (he : validName e = true) :
    ¬ (e = [] ∨ e = ['.']) ∧ e ≠ ['.', '.'] := by
  simp only [validName, Bool.and_eq_true, decide_eq_true_eq, Bool.not_eq_true] at he
  constructor
  · rintro (rfl | rfl)
    · simp [List.isEmpty] at he
    · exact absurd rfl he.1.1.2
  · exact he.1.2

theorem cleanLoop_all_valid (rooted : Bool) (comps : List (List Char)) (stack : List (List Char))
    (h : comps.all validName = true) :
    cleanLoop rooted comps stack = comps.reverse ++ stack := by
  induction comps generalizing stack with
  | nil => simp [cleanLoop]
  | cons e rest ih =>
    simp only [List.all_cons, Bool.and_eq_true] at h
    obtain ⟨he, hrest⟩ := h
    obtain ⟨h1, h2⟩ := validName_push e he
    rw [cleanLoop_push rooted e rest stack h1 h2, ih (e :: stack) hrest]
    simp

theorem validJoinL_head_ne_slash (l : List Char) (hv : validJoinL l = true) :
    l.head? ≠ some '/' := by
  cases l with
  | nil => simp
  | cons c rest =>
    intro hc
    simp only [List.head?] at hc
    have hc2 : c = '/' := by injection hc
    subst hc2
    simp only [validJoinL, splitSlash, if_pos rfl, List.all_cons] at hv
    simp [validName, List.isEmpty] at hv

theorem validJoinL_ne_nil (l : List Char) (hv : validJoinL l = true) : l ≠ [] := by
  intro h
  subst h
  simp [validJoinL, splitSlash, validName, List.isEmpty] at hv

/-- Cleaning is the identity on an unrooted join of ordinary names. -/
theorem cleanCore_validJoin (l : List Char) (hv : validJoinL l = true) :
    cleanCore l = l := by
  have hne := validJoinL_ne_nil l hv
  have hhead := validJoinL_head_ne_slash l hv
  have hloop : (cleanLoop false (splitSlash l) []).reverse = splitSlash l := by
    rw [cleanLoop_all_valid false (splitSlash l) [] hv]
    simp
  rw [cleanCore, if_neg hne, if_neg hhead, hloop, if_neg (splitSlash_ne_nil l),
    joinComps_splitSlash]

/-- Cleaning is the identity on a rooted join of ordinary names. -/
theorem cleanCore_rooted_validJoin (m : List Char) (hv : validJoinL m = true) :
    cleanCore ('/' :: m) = '/' :: m := by
  have hloop : (cleanLoop true (splitSlash ('/' :: m)) []).reverse = splitSlash m := by
    rw [splitSlash_cons_slash, cleanLoop_skip true [] (splitSlash m) [] (Or.inl rfl),
      cleanLoop_all_valid true (splitSlash m) [] hv]
    simp
  rw [cleanCore, if_neg (by simp), if_pos (by simp), hloop, joinComps_splitSlash]

/-! ## Archiving and extraction (cloak.go lines 99-228)

The tar stream is modelled as a list of entries; the tar+gzip byte
serialization performed by archive/tar and compress/gzip (external
libraries) is abstracted as a lossless codec. Filesystem writes performed
by extraction are recorded as an operation trace; I/O failures of those
writes (IOError) are environmental and not modelled. -/

/-- `tar.TypeReg` (the byte value of the character 0). -/
def TypeReg : Nat := 48

/-- `tar.TypeSymlink` (the byte value of the character 2). -/
def TypeSymlink : Nat := 50

/-- `tar.TypeDir` (the byte value of the character 5). -/
def TypeDir : Nat := 53

/-- One tar header plus payload as `ArchiveDirectory` produces it:
`header.Name` (the relative path), the type flag, the permission mode,
the file contents for regular files, and `header.Linkname` for symlinks. -/
structure TarEntry where
  name : String
  typeflag : Nat
  mode : Nat
  contents : List Nat
  linkname : String
deriving DecidableEq

/-- One filesystem write performed by `ExtractArchive`:
`os.MkdirAll`, the create-truncate-write of a regular file,
`os.Remove`, or `os.Symlink`. -/
inductive ExtractOp where
  | mkdirAll (path : String) (mode : Nat)
  | writeFile (path : String) (contents : List Nat) (mode : Nat)
  | remove (path : String)
  | symlink (linkTarget : String) (path : String)
deriving DecidableEq

/-- The filesystem path an operation touches. -/
def ExtractOp.path : ExtractOp → String
  | .mkdirAll p _ => p
  | .writeFile p _ _ => p
  | .remove p => p
  | .symlink _ p => p

/-- The body of the extraction loop for one tar entry
(cloak.go lines 186-224): clean the name, reject a cleaned name that has
the two-character dot-dot prefix or is absolute, then perform the writes
of the matching type case (other type flags fall through the switch with
no writes). -/
def extractEntry (destDir : String) (e : TarEntry) : Except String (List ExtractOp) :=
  if hasPrefixStr (filepathClean e.name) ".." || isAbsPath (filepathClean e.name) then
    Except.error ("invalid path in archive: " ++ e.name)
  else
    if e.typeflag = TypeDir then
      Except.ok [ExtractOp.mkdirAll (joinPath destDir (filepathClean e.name)) e.mode]
    else if e.typeflag = TypeReg then
      Except.ok [ExtractOp.mkdirAll (parentDir (joinPath destDir (filepathClean e.name))) 0o755,
        ExtractOp.writeFile (joinPath destDir (filepathClean e.name)) e.contents e.mode]
    else if e.typeflag = TypeSymlink then
      Except.ok [ExtractOp.mkdirAll (parentDir (joinPath destDir (filepathClean e.name))) 0o755,
        ExtractOp.remove (joinPath destDir (filepathClean e.name)),
        ExtractOp.symlink e.linkname (joinPath destDir (filepathClean e.name))]
    else Except.ok []

/-- The extraction loop (cloak.go lines 177-225): entries are processed in
stream order; the first rejected entry aborts the loop, discarding no write
already performed. The result is the trace of writes performed together
with the error, if any, that stopped the loop. -/
def extractEntries (destDir : String) : List TarEntry → List ExtractOp × Option String
  | [] => ([], none)
  | e :: rest =>
    match extractEntry destDir e with
    | Except.error msg => ([], some msg)
    | Except.ok ops =>
      (ops ++ (extractEntries destDir rest).1, (extractEntries destDir rest).2)

/-- The external archive/tar + compress/gzip serialization, abstracted as a
lossless codec from entry lists to byte streams. `dec` returning `none`
stands for any gzip-header or tar-stream decode failure. -/
structure TarGzCodec where
  enc : List TarEntry → List Nat
  dec : List Nat → Option (List TarEntry)
  dec_enc : ∀ es, dec (enc es) = some es

/-- `ExtractArchive` (cloak.go lines 168-228): decode the gzip-compressed
tar stream, then run the extraction loop. All decode failures are
collapsed into the gzip-reader error the source returns first. -/
def ExtractArchive (c : TarGzCodec) (data : List Nat) (destDir : String) :
    List ExtractOp × Option String :=
  match c.dec data with
  | none => ([], some "failed to create gzip reader: gzip: invalid header")
  | some entries => extractEntries destDir entries

/-- `filepath.Base` on Unix (cloak.go line 106): empty becomes a dot, then
trailing separators are stripped, then everything up to the last separator
is removed; an all-separator path becomes the separator. -/
def baseNameL (l : List Char) : List Char :=
  if l = [] then ['.']
  else
    let stripped := (l.reverse.dropWhile (fun c => c == '/')).reverse
    let name := (stripped.reverse.takeWhile (fun c => !(c == '/'))).reverse
    if name = [] then ['/'] else name

/-- `filepath.Base` (cloak.go line 106). -/
def baseName (s : String) : String := ⟨baseNameL s.data⟩

/-- An in-memory directory tree: the data `filepath.Walk` visits. A
directory holds its child entries in the lexicographic name order in which
`filepath.Walk` visits them (it sorts directory listings), so a disk tree
is represented canonically. -/
inductive FSNode where
  | file (contents : List Nat) (mode : Nat)
  | symlink (target : String) (mode : Nat)
  | dir (entries : List (String × FSNode)) (mode : Nat)

mutual

/-- The tar entries the `filepath.Walk` callback of `ArchiveDirectory`
(cloak.go lines 108-149) emits for the node at relative path `relPath`:
the node itself first (`header.Name = relPath`, the `filepath.Rel` result),
then, for directories, the children in the listed order with names
extended by a separator. Regular files carry their contents, symlinks
their link target. -/
def walkEntries (t : FSNode) (relPath : String) : List TarEntry :=
  match t with
  | .file contents mode => [⟨relPath, TypeReg, mode, contents, ""⟩]
  | .symlink target mode => [⟨relPath, TypeSymlink, mode, [], target⟩]
  | .dir es mode => ⟨relPath, TypeDir, mode, [], ""⟩ :: walkChildren es relPath

/-- The walk over the children of a directory, in listed order. -/
def walkChildren (es : List (String × FSNode)) (relPath : String) : List TarEntry :=
  match es with
  | [] => []
  | (n, t) :: rest => walkEntries t (relPath ++ "/" ++ n) ++ walkChildren rest relPath

end

/-- `ArchiveDirectory` (cloak.go lines 100-165): walk the tree rooted at
`dirPath` — every entry name is the path relative to the parent of
`dirPath`, so the base name of `dirPath` is the top-level prefix — and
serialize the entries through the tar+gzip codec. Walk I/O errors are
environmental and not modelled. -/
def ArchiveDirectory (c : TarGzCodec) (dirPath : String) (t : FSNode) : List Nat :=
  c.enc (walkEntries t (baseName dirPath))

mutual

/-- The writes that reproduce the tree `t` at absolute path `target`:
the expected effect of extracting an archive of `t`. -/
def treeOps (target : String) (t : FSNode) : List ExtractOp :=
  match t with
  | .file contents mode =>
      [ExtractOp.mkdirAll (parentDir target) 0o755,
        ExtractOp.writeFile target contents mode]
  | .symlink link _ =>
      [ExtractOp.mkdirAll (parentDir target) 0o755, ExtractOp.remove target,
        ExtractOp.symlink link target]
  | .dir es mode => ExtractOp.mkdirAll target mode :: treeOpsList target es

/-- The writes for the children of a directory at `target`. -/
def treeOpsList (target : String) (es : List (String × FSNode)) : List ExtractOp :=
  match es with
  | [] => []
  | (n, t) :: rest => treeOps (target ++ "/" ++ n) t ++ treeOpsList target rest

end

/-- Strict byte-lexicographic order on names (the `sort.Strings` order in
which `filepath.Walk` lists directory entries; codepoint order and byte
order agree under UTF-8). -/
def lexLt : List Char → List Char → Bool
  | [], [] => false
  | [], _ :: _ => true
  | _ :: _, [] => false
  | a :: as, b :: bs => if a = b then lexLt as bs else decide (a < b)

mutual

/-- The tree is a faithful image of a disk tree: every name is an ordinary
component and each directory lists its children in strictly increasing
name order (the order `filepath.Walk` produces, which also makes names
distinct). -/
def treeValid : FSNode → Bool
  | .file _ _ => true
  | .symlink _ _ => true
  | .dir es _ => childrenValid es

/-- Validity of a child list. -/
def childrenValid : List (String × FSNode) → Bool
  | [] => true
  | (n, t) :: rest =>
      validName n.data && treeValid t && childrenValid rest &&
        match rest with
        | [] => true
        | (n2, _) :: _ => lexLt n.data n2.data

end

/-- An archive-entry relative path that extraction must accept: a join of
ordinary names that does not start with the two characters dot-dot. -/
def pathOk (s : String) : Bool := validJoinL s.data && !(startsDD s.data)

/-! ## Lemmas: path strings and extraction of a walked tree -/

theorem dataJoin (a b : String) : (a ++ "/" ++ b).data = a.data ++ '/' :: b.data := by
  simp [String.data_append]

theorem strJoin_assoc (a b c : String) :
    a ++ "/" ++ (b ++ "/" ++ c) = (a ++ "/" ++ b) ++ "/" ++ c := by
  apply String.ext
  simp [String.data_append]

theorem splitSlash_noslash (n : List Char) (h : n.contains '/' = false) :
    splitSlash n = [n] := by
  induction n with
  | nil => rfl
  | cons c rest ih =>
    rw [List.contains_cons, Bool.or_eq_false_iff] at h
    have hc : c ≠ '/' := by
      intro hcc
      rw [hcc] at h
      simp at h
    exact splitSlash_cons_other c rest hc rest [] (ih h.2)

theorem validName_noslash (n : List Char) (h : validName n = true) :
    n.contains '/' = false := by
  simp only [validName, Bool.and_eq_true, Bool.not_eq_true'] at h
  exact h.2

theorem validJoinL_single (n : List Char) (h : validName n = true) :
    validJoinL n = true := by
  rw [validJoinL, splitSlash_noslash n (validName_noslash n h)]
  simp [h]

theorem validJoinL_concat (a b : List Char) :
    validJoinL (a ++ '/' :: b) = (validJoinL a && validJoinL b) := by
  simp [validJoinL, splitSlash_append, List.all_append]

theorem startsDD_two (c1 c2 : Char) (t : List Char) :
    startsDD (c1 :: c2 :: t) = (('.' == c1) && ('.' == c2)) := by
  simp [startsDD, List.isPrefixOf]

theorem startsDD_concat (a b : List Char) (hne : a ≠ []) (ha : startsDD a = false) :
    startsDD (a ++ '/' :: b) = false := by
  match a, hne with
  | [c], _ =>
    show startsDD (c :: '/' :: b) = false
    rw [startsDD_two]
    simp
  | c1 :: c2 :: t, _ =>
    show startsDD (c1 :: c2 :: (t ++ '/' :: b)) = false
    rw [startsDD_two]
    rw [startsDD_two] at ha
    exact ha

theorem pathOk_parts (s : String) (h : pathOk s = true) :
    validJoinL s.data = true ∧ startsDD s.data = false := by
  simp only [pathOk, Bool.and_eq_true, Bool.not_eq_true'] at h
  exact h

theorem pathOk_intro (s : String) (h1 : validJoinL s.data = true)
    (h2 : startsDD s.data = false) : pathOk s = true := by
  simp [pathOk, h1, h2]

theorem pathOk_extend (rel n : String) (hp : pathOk rel = true)
    (hn : validName n.data = true) : pathOk (rel ++ "/" ++ n) = true := by
  obtain ⟨h1, h2⟩ := pathOk_parts rel hp
  apply pathOk_intro
  · rw [dataJoin, validJoinL_concat]
    simp [h1, validJoinL_single n.data hn]
  · rw [dataJoin]
    exact startsDD_concat rel.data n.data (validJoinL_ne_nil rel.data h1) h2

theorem filepathClean_pathOk (rel : String) (h : pathOk rel = true) :
    filepathClean rel = rel := by
  obtain ⟨h1, _⟩ := pathOk_parts rel h
  apply String.ext
  show cleanCore rel.data = rel.data
  exact cleanCore_validJoin rel.data h1

theorem hasPrefixDD_eq (s : String) : hasPrefixStr s ".." = startsDD s.data := rfl

theorem isAbsPath_false (s : String) (h : validJoinL s.data = true) :
    isAbsPath s = false :=
  beq_eq_false_iff_ne.mpr (validJoinL_head_ne_slash s.data h)

theorem rejectCheck_false (rel : String) (h : pathOk rel = true) :
    (hasPrefixStr (filepathClean rel) ".." || isAbsPath (filepathClean rel)) = false := by
  obtain ⟨h1, h2⟩ := pathOk_parts rel h
  rw [filepathClean_pathOk rel h]
  apply Bool.or_eq_false_iff.mpr
  exact ⟨by rw [hasPrefixDD_eq]; exact h2, isAbsPath_false rel h1⟩

theorem absCleanDir_parts (dest : String) (hd : absCleanDir dest = true) :
    ∃ m, dest.data = '/' :: m ∧ validJoinL m = true := by
  simp only [absCleanDir, Bool.and_eq_true, beq_iff_eq] at hd
  obtain ⟨hh, hv⟩ := hd
  cases hdd : dest.data with
  | nil => rw [hdd] at hh; simp at hh
  | cons c m =>
    rw [hdd] at hh hv
    simp only [List.head?] at hh
    have hc : c = '/' := by injection hh
    subst hc
    exact ⟨m, rfl, by simpa using hv⟩

theorem joinPath_absClean (dest rel : String) (hd : absCleanDir dest = true)
    (hr : validJoinL rel.data = true) :
    joinPath dest rel = dest ++ "/" ++ rel := by
  obtain ⟨m, hm, hmv⟩ := absCleanDir_parts dest hd
  have hdne : dest.data ≠ [] := by rw [hm]; simp
  have hrne : rel.data ≠ [] := validJoinL_ne_nil rel.data hr
  rw [joinPath, if_neg hdne, if_neg hrne]
  apply String.ext
  show cleanCore ((dest ++ "/" ++ rel).data) = (dest ++ "/" ++ rel).data
  rw [dataJoin, hm]
  show cleanCore ('/' :: (m ++ '/' :: rel.data)) = '/' :: (m ++ '/' :: rel.data)
  apply cleanCore_rooted_validJoin
  rw [validJoinL_concat]
  simp [hmv, hr]

theorem extractEntry_regE (dest rel : String) (m : Nat) (cs : List Nat)
    (hd : absCleanDir dest = true) (hp : pathOk rel = true) :
    extractEntry dest ⟨rel, TypeReg, m, cs, ""⟩ =
      Except.ok [ExtractOp.mkdirAll (parentDir (dest ++ "/" ++ rel)) 0o755,
        ExtractOp.writeFile (dest ++ "/" ++ rel) cs m] := by
  obtain ⟨h1, h2⟩ := pathOk_parts rel hp
  simp [extractEntry, filepathClean_pathOk rel hp, hasPrefixDD_eq, h2,
    isAbsPath_false rel h1, joinPath_absClean dest rel hd h1, TypeReg, TypeDir, TypeSymlink]

theorem extractEntry_dirE (dest rel : String) (m : Nat)
    (hd : absCleanDir dest = true) (hp : pathOk rel = true) :
    extractEntry dest ⟨rel, TypeDir, m, [], ""⟩ =
      Except.ok [ExtractOp.mkdirAll (dest ++ "/" ++ rel) m] := by
  obtain ⟨h1, h2⟩ := pathOk_parts rel hp
  simp [extractEntry, filepathClean_pathOk rel hp, hasPrefixDD_eq, h2,
    isAbsPath_false rel h1, joinPath_absClean dest rel hd h1, TypeDir]

theorem extractEntry_symE (dest rel target : String) (m : Nat)
    (hd : absCleanDir dest = true) (hp : pathOk rel = true) :
    extractEntry dest ⟨rel, TypeSymlink, m, [], target⟩ =
      Except.ok [ExtractOp.mkdirAll (parentDir (dest ++ "/" ++ rel)) 0o755,
        ExtractOp.remove (dest ++ "/" ++ rel),
        ExtractOp.symlink target (dest ++ "/" ++ rel)] := by
  obtain ⟨h1, h2⟩ := pathOk_parts rel hp
  simp [extractEntry, filepathClean_pathOk rel hp, hasPrefixDD_eq, h2,
    isAbsPath_false rel h1, joinPath_absClean dest rel hd h1, TypeReg, TypeDir, TypeSymlink]

theorem extractEntries_cons_ok (dest : String) (e : TarEntry) (rest : List TarEntry)
    (ops : List ExtractOp) (h : extractEntry dest e = Except.ok ops) :
    extractEntries dest (e :: rest)
      = (ops ++ (extractEntries dest rest).1, (extractEntries dest rest).2) := by
  simp [extractEntries, h]

theorem extractEntries_append (dest : String) (xs ys : List TarEntry)
    (h : (extractEntries dest xs).2 = none) :
    extractEntries dest (xs ++ ys)
      = ((extractEntries dest xs).1 ++ (extractEntries dest ys).1,
        (extractEntries dest ys).2) := by
  induction xs with
  | nil => simp [extractEntries]
  | cons e rest ih =>
    cases hE : extractEntry dest e with
    | error msg => simp [extractEntries, hE] at h
    | ok ops =>
      have h2 : (extractEntries dest rest).2 = none := by
        simp only [extractEntries_cons_ok dest e rest ops hE] at h
        exact h
      rw [List.cons_append, extractEntries_cons_ok dest e (rest ++ ys) ops hE,
        extractEntries_cons_ok dest e rest ops hE, ih h2]
      simp [List.append_assoc]

theorem walkEntries_file (cs : List Nat) (m : Nat) (rel : String) :
    walkEntries (FSNode.file cs m) rel = [⟨rel, TypeReg, m, cs, ""⟩] := by
  rw [walkEntries]

theorem walkEntries_symlink (target : String) (m : Nat) (rel : String) :
    walkEntries (FSNode.symlink target m) rel = [⟨rel, TypeSymlink, m, [], target⟩] := by
  rw [walkEntries]

theorem walkEntries_dir (es : List (String × FSNode)) (m : Nat) (rel : String) :
    walkEntries (FSNode.dir es m) rel
      = ⟨rel, TypeDir, m, [], ""⟩ :: walkChildren es rel := by
  rw [walkEntries]

theorem walkChildren_nil (rel : String) : walkChildren [] rel = [] := by
  rw [walkChildren]

theorem walkChildren_cons (n : String) (t : FSNode) (rest : List (String × FSNode))
    (rel : String) :
    walkChildren ((n, t) :: rest) rel
      = walkEntries t (rel ++ "/" ++ n) ++ walkChildren rest rel := by
  rw [walkChildren]

theorem treeOps_file (target : String) (cs : List Nat) (m : Nat) :
    treeOps target (FSNode.file cs m)
      = [ExtractOp.mkdirAll (parentDir target) 0o755,
        ExtractOp.writeFile target cs m] := by
  rw [treeOps]

theorem treeOps_symlink (target link : String) (m : Nat) :
    treeOps target (FSNode.symlink link m)
      = [ExtractOp.mkdirAll (parentDir target) 0o755, ExtractOp.remove target,
        ExtractOp.symlink link target] := by
  rw [treeOps]

theorem treeOps_dir (target : String) (es : List (String × FSNode)) (m : Nat) :
    treeOps target (FSNode.dir es m)
      = ExtractOp.mkdirAll target m :: treeOpsList target es := by
  rw [treeOps]

theorem treeOpsList_nil (target : String) : treeOpsList target [] = [] := by
  rw [treeOpsList]

theorem treeOpsList_cons (target n : String) (t : FSNode)
    (rest : List (String × FSNode)) :
    treeOpsList target ((n, t) :: rest)
      = treeOps (target ++ "/" ++ n) t ++ treeOpsList target rest := by
  rw [treeOpsList]

theorem childrenValid_parts (n : String) (t : FSNode) (rest : List (String × FSNode))
    (h : childrenValid ((n, t) :: rest) = true) :
    validName n.data = true ∧ treeValid t = true ∧ childrenValid rest = true := by
  simp only [childrenValid, Bool.and_eq_true] at h
  exact ⟨h.1.1.1, h.1.1.2, h.1.2⟩

mutual

theorem extract_walk (dest : String) (t : FSNode) (rel : String)
    (hdest : absCleanDir dest = true) (hv : treeValid t = true) (hp : pathOk rel = true) :
    extractEntries dest (walkEntries t rel)
      = (treeOps (dest ++ "/" ++ rel) t, none) := by
  match t with
  | FSNode.file cs m =>
    rw [walkEntries_file,
      extractEntries_cons_ok dest _ [] _ (extractEntry_regE dest rel m cs hdest hp),
      treeOps_file]
    simp [extractEntries]
  | FSNode.symlink target m =>
    rw [walkEntries_symlink,
      extractEntries_cons_ok dest _ [] _ (extractEntry_symE dest rel target m hdest hp),
      treeOps_symlink]
    simp [extractEntries]
  | FSNode.dir es m =>
    have hch : childrenValid es = true := by simp only [treeValid] at hv; exact hv
    rw [walkEntries_dir,
      extractEntries_cons_ok dest _ _ _ (extractEntry_dirE dest rel m hdest hp),
      extract_walkChildren dest es rel hdest hch hp, treeOps_dir]
    simp

theorem extract_walkChildren (dest : String) (es : List (String × FSNode)) (rel : String)
    (hdest : absCleanDir dest = true) (hv : childrenValid es = true)
    (hp : pathOk rel = true) :
    extractEntries dest (walkChildren es rel)
      = (treeOpsList (dest ++ "/" ++ rel) es, none) := by
  match es with
  | [] =>
    rw [walkChildren_nil, treeOpsList_nil]
    simp [extractEntries]
  | (n, t) :: rest =>
    obtain ⟨hn, ht, hrest⟩ := childrenValid_parts n t rest hv
    have hp2 : pathOk (rel ++ "/" ++ n) = true := pathOk_extend rel n hp hn
    have hw := extract_walk dest t (rel ++ "/" ++ n) hdest ht hp2
    rw [walkChildren_cons, extractEntries_append dest _ _ (by rw [hw]), hw,
      extract_walkChildren dest rest rel hdest hrest hp, treeOpsList_cons, strJoin_assoc]

end

/-! ## A concrete lossless codec (witness instance for `TarGzCodec`) -/

/-- Length-prefixed encoding of a string as byte-like values. -/
def encStr (s : String) : List Nat := s.data.length :: s.data.map Char.toNat

/-- Encoding of one tar entry. -/
def encEntry (e : TarEntry) : List Nat :=
  encStr e.name ++ e.typeflag :: e.mode :: e.contents.length :: e.contents
    ++ encStr e.linkname

/-- Decode a length-prefixed string, returning the remainder. -/
def decStr (l : List Nat) : Option (String × List Nat) :=
  match l with
  | [] => none
  | n :: rest =>
    if n ≤ rest.length then
      some (⟨(rest.take n).map Char.ofNat⟩, rest.drop n)
    else none

/-- Decode one tar entry, returning the remainder. -/
def decEntry (l : List Nat) : Option (TarEntry × List Nat) :=
  match decStr l with
  | none => none
  | some (name, r1) =>
    match r1 with
    | tf :: md :: cl :: r2 =>
      if cl ≤ r2.length then
        match decStr (r2.drop cl) with
        | none => none
        | some (link, r3) => some (⟨name, tf, md, r2.take cl, link⟩, r3)
      else none
    | _ => none

/-- Decode exactly `k` entries consuming the whole input. -/
def decEntriesN : Nat → List Nat → Option (List TarEntry)
  | 0, [] => some []
  | 0, _ :: _ => none
  | k + 1, l =>
    match decEntry l with
    | none => none
    | some (e, rest) => (decEntriesN k rest).map (fun es => e :: es)

/-- Concrete entry-list encoder: a count followed by the entries. -/
def mockEnc (es : List TarEntry) : List Nat := es.length :: (es.map encEntry).join

/-- Concrete entry-list decoder. -/
def mockDec (l : List Nat) : Option (List TarEntry) :=
  match l with
  | [] => none
  | n :: rest => decEntriesN n rest

theorem decStr_encStr (s : String) (r : List Nat) : decStr (encStr s ++ r) = some (s, r) := by
  have hlen : (s.data.map Char.toNat).length = s.data.length := List.length_map _ _
  have htake : ((s.data.map Char.toNat) ++ r).take s.data.length = s.data.map Char.toNat := by
    rw [← hlen, List.take_left]
  have hdrop : ((s.data.map Char.toNat) ++ r).drop s.data.length = r := by
    rw [← hlen, List.drop_left]
  show decStr (s.data.length :: ((s.data.map Char.toNat) ++ r)) = some (s, r)
  rw [decStr]
  rw [if_pos (by rw [List.length_append, hlen]; omega)]
  have hid : (s.data.map Char.toNat).map Char.ofNat = s.data := by
    rw [List.map_map]
    simp [Function.comp_def, Char.ofNat_toNat]
  rw [htake, hdrop, hid]

theorem decEntry_encEntry (e : TarEntry) (r : List Nat) :
    decEntry (encEntry e ++ r) = some (e, r) := by
  obtain ⟨name, tf, md, cs, link⟩ := e
  have hshape : encEntry ⟨name, tf, md, cs, link⟩ ++ r
      = encStr name ++ (tf :: md :: cs.length :: (cs ++ (encStr link ++ r))) := by
    show (encStr name ++ tf :: md :: cs.length :: cs ++ encStr link) ++ r
      = encStr name ++ (tf :: md :: cs.length :: (cs ++ (encStr link ++ r)))
    simp [List.append_assoc]
  rw [decEntry, hshape, decStr_encStr]
  have htake : (cs ++ (encStr link ++ r)).take cs.length = cs := List.take_left cs _
  have hdrop : (cs ++ (encStr link ++ r)).drop cs.length = encStr link ++ r :=
    List.drop_left cs _
  simp only [if_pos (by rw [List.length_append]; omega : cs.length ≤ (cs ++ (encStr link ++ r)).length),
    htake, hdrop, decStr_encStr]

theorem decEntriesN_enc (es : List TarEntry) :
    decEntriesN es.length ((es.map encEntry).join) = some es := by
  induction es with
  | nil => rfl
  | cons e rest ih =>
    show decEntriesN (rest.length + 1) (encEntry e ++ (rest.map encEntry).join)
      = some (e :: rest)
    rw [decEntriesN, decEntry_encEntry]
    show Option.map (fun es => e :: es) (decEntriesN rest.length ((rest.map encEntry).join))
      = some (e :: rest)
    rw [ih]
    rfl

/-- A concrete mock tar+gzip codec (witness instance only). -/
def mockCodec : TarGzCodec where
  enc := mockEnc
  dec := mockDec
  dec_enc := by
    intro es
    show mockDec (es.length :: (es.map encEntry).join) = some es
    rw [mockDec, decEntriesN_enc]

/-! ## C1, C10: round trip and its limits -/

/-- C1 (amended): for every directory tree whose component names are
ordinary names and whose root base name does not begin with the two
characters dot-dot, and for every password, salt and 12-byte nonce:
encrypting the archived tree with the key derived from the password
succeeds; decrypting the resulting ciphertext with the same derived key
and nonce returns the archive blob unchanged; and extracting that blob
into a clean absolute destination directory performs exactly the writes
that recreate the tree — same file names, same file contents, same
symlink targets — under the root base name as top-level prefix. -/
theorem archive_encrypt_decrypt_extract_roundTrip (c : TarGzCodec) (G : AEAD) (A : Argon2)
    (dirPath destDir : String) (t : FSNode) (password salt nonce : List Nat)
    (hnonce : nonce.length = 12) (ht : treeValid t = true)
    (hbase : pathOk (baseName dirPath) = true) (hdest : absCleanDir destDir = true) :
    EncryptData G (ArchiveDirectory c dirPath t) (DeriveKey A password salt) nonce
        = Except.ok (G.sealOp (DeriveKey A password salt) nonce
            (ArchiveDirectory c dirPath t))
    ∧ DecryptData G
        (G.sealOp (DeriveKey A password salt) nonce (ArchiveDirectory c dirPath t))
        (DeriveKey A password salt) nonce
        = Except.ok (ArchiveDirectory c dirPath t)
    ∧ ExtractArchive c (ArchiveDirectory c dirPath t) destDir
        = (treeOps (destDir ++ "/" ++ baseName dirPath) t, none) := by
  have hk : (DeriveKey A password salt).length = 32 :=
    A.idKey_len password salt argonTime argonMemory argonThreads KeySize
  have hvk : validKeyLen (DeriveKey A password salt) = true := by simp [validKeyLen, hk]
  refine ⟨?_, ?_, ?_⟩
  · rw [EncryptData, if_pos hvk]
  · rw [DecryptData, if_pos hvk,
      G.openOp_sealOp (DeriveKey A password salt) nonce (ArchiveDirectory c dirPath t)
        hk hnonce]
  · rw [ExtractArchive,
      show c.dec (ArchiveDirectory c dirPath t)
        = some (walkEntries t (baseName dirPath)) from c.dec_enc _]
    exact extract_walk destDir t (baseName dirPath) hdest ht hbase

/-- A sample directory tree with a file, a symlink and a subdirectory. -/
def sampleTree : FSNode :=
  FSNode.dir [("a.txt", FSNode.file [104, 105] 420),
    ("link", FSNode.symlink "a.txt" 511),
    ("sub", FSNode.dir [("b.txt", FSNode.file [119] 420)] 493)] 493

/-- Witness for C1 at a concrete tree, directory and destination. -/
theorem archive_encrypt_decrypt_extract_roundTrip_witness :
    ExtractArchive mockCodec (ArchiveDirectory mockCodec "/home/u/data" sampleTree) "/home/u"
      = (treeOps ("/home/u" ++ "/" ++ baseName "/home/u/data") sampleTree, none) :=
  (archive_encrypt_decrypt_extract_roundTrip mockCodec mockAEAD mockArgon
    "/home/u/data" "/home/u" sampleTree [1] [2] (List.replicate 12 0)
    (by decide) (by decide) (by decide) (by decide)).2.2

/-- A legitimate tree whose root directory is named with a leading dot-dot. -/
def ddTree : FSNode := FSNode.dir [("a.txt", FSNode.file [104] 420)] 493

/-- Counterexample to C1 as universally stated: for the tree rooted at
`/h/..d`, decryption of the encryption returns the archive blob intact, yet
extraction rejects the very first entry and performs no write at all, so
the tree — whose reproduction would need at least one write — is not
reproduced. -/
theorem roundTrip_fails_on_dotdot_basename :
    DecryptData mockAEAD
        (mockSeal (DeriveKey mockArgon [1] [2]) (List.replicate 12 0)
          (ArchiveDirectory mockCodec "/h/..d" ddTree))
        (DeriveKey mockArgon [1] [2]) (List.replicate 12 0)
      = Except.ok (ArchiveDirectory mockCodec "/h/..d" ddTree)
    ∧ ExtractArchive mockCodec (ArchiveDirectory mockCodec "/h/..d" ddTree) "/h"
        = ([], some "invalid path in archive: ..d")
    ∧ treeOps ("/h" ++ "/" ++ baseName "/h/..d") ddTree ≠ [] :=
  ⟨rfl, rfl, by decide⟩

/-- C10: the cleaned name of a top-level entry called dot-dot-config is the
name itself; it is not a parent-directory reference (not dot-dot, not a
dot-dot-slash prefix, not absolute) and every component is an ordinary
name; yet extraction rejects it with the path-traversal error, and a tree
rooted at such a name fails to round-trip: extraction of its own archive
performs no write and errors. -/
theorem dotdot_name_rejected :
    filepathClean "..config" = "..config"
    ∧ filepathClean "..config" ≠ ".."
    ∧ hasPrefixStr (filepathClean "..config") "../" = false
    ∧ isAbsPath (filepathClean "..config") = false
    ∧ validJoinL ("..config").data = true
    ∧ extractEntries "/h" [⟨"..config", TypeDir, 493, [], ""⟩]
        = ([], some "invalid path in archive: ..config")
    ∧ ExtractArchive mockCodec
        (ArchiveDirectory mockCodec "/h/..config"
          (FSNode.dir [("x", FSNode.file [1] 420)] 493)) "/h"
        = ([], some "invalid path in archive: ..config") := by
  refine ⟨rfl, by decide, by decide, by decide, by decide, rfl, rfl⟩

/-! ## C3: path-traversal rejection and containment of writes -/

/-- `q` is lexically inside the directory `destDir` (or is it): the
component list of `destDir` is a prefix of that of `q` and the remaining
components are real steps downward (nonempty, never dot-dot). -/
def isUnder (destDir q : String) : Bool :=
  (splitSlash destDir.data).isPrefixOf (splitSlash q.data)
    && ((splitSlash q.data).drop (splitSlash destDir.data).length).all
        (fun comp => !comp.isEmpty && decide (comp ≠ ['.', '.']))

/-- Operations that write a file-system object other than a directory:
regular-file creation, removal, symlink creation. -/
def ExtractOp.isFileWrite : ExtractOp → Bool
  | .writeFile _ _ _ => true
  | .remove _ => true
  | .symlink _ _ => true
  | .mkdirAll _ _ => false

theorem isUnder_self (dest : String) : isUnder dest dest = true := by
  rw [isUnder]
  rw [List.isPrefixOf_iff_prefix.mpr (List.prefix_refl _)]
  simp [List.drop_length]

theorem validName_step (comp : List Char) (h : validName comp = true) :
    (!comp.isEmpty && decide (comp ≠ ['.', '.'])) = true := by
  simp only [validName, Bool.and_eq_true] at h
  simp [h.1.1.1, h.1.2]

theorem isUnder_join (dest p : String) (hd : absCleanDir dest = true)
    (hp : validJoinL p.data = true) :
    isUnder dest (dest ++ "/" ++ p) = true := by
  rw [isUnder]
  have hsplit : splitSlash ((dest ++ "/" ++ p).data)
      = splitSlash dest.data ++ splitSlash p.data := by
    rw [dataJoin, splitSlash_append]
  rw [hsplit, List.isPrefixOf_iff_prefix.mpr (List.prefix_append _ _), List.drop_left]
  simp only [Bool.true_and]
  rw [validJoinL] at hp
  apply List.all_eq_true.mpr
  intro comp hcomp
  exact validName_step comp (List.all_eq_true.mp hp comp hcomp)

theorem splitSlash_noslash_all (l : List Char) :
    (splitSlash l).all (fun comp => !comp.contains '/') = true := by
  induction l with
  | nil => decide
  | cons c rest ih =>
    by_cases h : c = '/'
    · subst h
      rw [splitSlash_cons_slash]
      simpa using ih
    · cases hs : splitSlash rest with
      | nil => exact absurd hs (splitSlash_ne_nil rest)
      | cons x y =>
        rw [splitSlash_cons_other c rest h x y hs]
        rw [hs] at ih
        simp only [List.all_cons, Bool.and_eq_true] at ih ⊢
        refine ⟨?_, ih.2⟩
        have hcb : ('/' == c) = false := beq_eq_false_iff_ne.mpr (Ne.symm h)
        have hx : x.contains '/' = false := by
          have := ih.1
          rwa [Bool.not_eq_true'] at this
        simp only [List.contains_cons, hcb, hx]
        rfl

/-- The stack of the cleaning loop always consists of ordinary names with
a block of dot-dot entries at the bottom. -/
def goodStack (stack : List (List Char)) : Prop :=
  ∃ g k, stack = g ++ List.replicate k ['.', '.'] ∧ g.all validName = true

theorem goodStack_nil : goodStack [] := ⟨[], 0, rfl, rfl⟩

theorem cleanLoop_goodStack (rooted : Bool) (comps : List (List Char))
    (stack : List (List Char))
    (hns : comps.all (fun comp => !comp.contains '/') = true)
    (hst : goodStack stack) :
    goodStack (cleanLoop rooted comps stack) := by
  induction comps generalizing stack with
  | nil => exact hst
  | cons e rest ih =>
    simp only [List.all_cons, Bool.and_eq_true] at hns
    obtain ⟨hens, hrest⟩ := hns
    by_cases h1 : e = [] ∨ e = ['.']
    · rw [cleanLoop_skip rooted e rest stack h1]
      exact ih _ hrest hst
    · by_cases h2 : e = ['.', '.']
      · subst h2
        obtain ⟨g, k, hgk, hgv⟩ := hst
        cases stack with
        | nil =>
          cases rooted with
          | true =>
            have hloop : cleanLoop true (['.', '.'] :: rest) []
                = cleanLoop true rest [] := by
              simp [cleanLoop]
            rw [hloop]
            exact ih _ hrest goodStack_nil
          | false =>
            have hloop : cleanLoop false (['.', '.'] :: rest) []
                = cleanLoop false rest [['.', '.']] := by
              simp [cleanLoop]
            rw [hloop]
            exact ih _ hrest ⟨[], 1, rfl, rfl⟩
        | cons top stk =>
          by_cases htop : top = ['.', '.']
          · subst htop
            have hloop : cleanLoop rooted (['.', '.'] :: rest) (['.', '.'] :: stk)
                = cleanLoop rooted rest (['.', '.'] :: ['.', '.'] :: stk) := by
              simp [cleanLoop]
            rw [hloop]
            apply ih _ hrest
            have hg : g = [] := by
              cases hgcases : g with
              | nil => rfl
              | cons x g2 =>
                exfalso
                rw [hgcases] at hgk
                have hx : ['.', '.'] = x := (List.cons_eq_cons.mp hgk).1
                rw [hgcases] at hgv
                simp only [List.all_cons, Bool.and_eq_true] at hgv
                rw [← hx] at hgv
                exact absurd hgv.1 (by decide)
            rw [hg, List.nil_append] at hgk
            refine ⟨[], k + 1, ?_, rfl⟩
            rw [List.nil_append, List.replicate_succ, ← hgk]
          · have hloop : cleanLoop rooted (['.', '.'] :: rest) (top :: stk)
                = cleanLoop rooted rest stk := by
              simp [cleanLoop, htop]
            rw [hloop]
            apply ih _ hrest
            cases hgcases : g with
            | nil =>
              exfalso
              rw [hgcases, List.nil_append] at hgk
              cases k with
              | zero => simp at hgk
              | succ k2 =>
                rw [List.replicate_succ] at hgk
                exact htop (List.cons_eq_cons.mp hgk).1
            | cons x g2 =>
              rw [hgcases, List.cons_append] at hgk
              rw [hgcases] at hgv
              simp only [List.all_cons, Bool.and_eq_true] at hgv
              exact ⟨g2, k, (List.cons_eq_cons.mp hgk).2, hgv.2⟩
      · have hv : validName e = true := by
          simp only [validName, Bool.and_eq_true]
          refine ⟨⟨⟨?_, ?_⟩, ?_⟩, ?_⟩
          · cases he : e with
            | nil => exact absurd (Or.inl he) h1
            | cons a b => simp
          · simp only [decide_eq_true_eq]
            intro hdot
            exact h1 (Or.inr hdot)
          · simp only [decide_eq_true_eq]
            exact h2
          · exact hens
        rw [cleanLoop_push rooted e rest stack h1 h2]
        apply ih _ hrest
        obtain ⟨g, k, hgk, hgv⟩ := hst
        refine ⟨e :: g, k, ?_, ?_⟩
        · rw [hgk]
          rfl
        · simp [hv, hgv]

theorem all_validName_noslash (l : List (List Char)) (h : l.all validName = true) :
    l.all (fun comp => !comp.contains '/') = true := by
  apply List.all_eq_true.mpr
  intro comp hc
  have hv := List.all_eq_true.mp h comp hc
  have hns := validName_noslash comp hv
  simp only [hns]
  rfl

theorem startsDD_joinComps_dd (rest : List (List Char)) :
    startsDD (joinComps (['.', '.'] :: rest)) = true := by
  cases rest with
  | nil => decide
  | cons a b =>
    rw [joinComps_pair]
    show startsDD ('.' :: '.' :: ('/' :: joinComps (a :: b))) = true
    rw [startsDD_two]
    decide

theorem splitSlash_joinComps (comps : List (List Char)) (hne : comps ≠ [])
    (hns : comps.all (fun comp => !comp.contains '/') = true) :
    splitSlash (joinComps comps) = comps := by
  induction comps with
  | nil => exact absurd rfl hne
  | cons x rest ih =>
    simp only [List.all_cons, Bool.and_eq_true] at hns
    have hx : x.contains '/' = false := by
      have := hns.1
      rwa [Bool.not_eq_true'] at this
    cases rest with
    | nil =>
      show splitSlash x = [x]
      exact splitSlash_noslash x hx
    | cons y t =>
      rw [joinComps_pair, splitSlash_append, splitSlash_noslash x hx,
        ih (by simp) hns.2]
      rfl

/-- The cleaned form of any accepted entry name (one that neither has the
dot-dot prefix nor is absolute) is either the single dot or a join of
ordinary names. -/
theorem cleanCore_accepted (l : List Char)
    (hdd : startsDD (cleanCore l) = false)
    (habs : (cleanCore l).head? ≠ some '/') :
    cleanCore l = ['.'] ∨ validJoinL (cleanCore l) = true := by
  by_cases hne : l = []
  · subst hne
    left
    rfl
  by_cases hhead : l.head? = some '/'
  · exfalso
    rw [cleanCore, if_neg hne, if_pos hhead] at habs
    simp at habs
  rw [cleanCore, if_neg hne, if_neg hhead] at hdd ⊢
  by_cases hempty : (cleanLoop false (splitSlash l) []).reverse = []
  · rw [if_pos hempty]
    left
    rfl
  rw [if_neg hempty] at hdd ⊢
  right
  obtain ⟨g, k, hgk, hgv⟩ :=
    cleanLoop_goodStack false (splitSlash l) [] (splitSlash_noslash_all l) goodStack_nil
  have hrev : (cleanLoop false (splitSlash l) []).reverse
      = List.replicate k ['.', '.'] ++ g.reverse := by
    rw [hgk, List.reverse_append, List.reverse_replicate]
  cases k with
  | succ k2 =>
    exfalso
    rw [hrev, List.replicate_succ, List.cons_append, startsDD_joinComps_dd] at hdd
    simp at hdd
  | zero =>
    rw [List.replicate_zero, List.nil_append] at hrev
    have hall : ((cleanLoop false (splitSlash l) []).reverse).all validName = true := by
      rw [hrev, List.all_reverse]
      exact hgv
    rw [validJoinL, splitSlash_joinComps _ hempty (all_validName_noslash _ hall)]
    exact hall

theorem cleanLoop_valid_dot (r : Bool) (comps stack : List (List Char))
    (h : comps.all validName = true) :
    cleanLoop r (comps ++ [['.']]) stack = comps.reverse ++ stack := by
  induction comps generalizing stack with
  | nil =>
    show cleanLoop r [['.']] stack = stack
    rw [cleanLoop_skip r ['.'] [] stack (Or.inr rfl)]
    rfl
  | cons e rest ih =>
    simp only [List.all_cons, Bool.and_eq_true] at h
    obtain ⟨h1c, h2c⟩ := validName_push e h.1
    rw [List.cons_append, cleanLoop_push r e _ stack h1c h2c, ih _ h.2]
    simp

theorem joinPath_dot (dest : String) (hd : absCleanDir dest = true) :
    joinPath dest ⟨['.']⟩ = dest := by
  obtain ⟨m, hm, hmv⟩ := absCleanDir_parts dest hd
  have hdne : dest.data ≠ [] := by rw [hm]; simp
  rw [joinPath, if_neg hdne, if_neg (by simp : (String.mk ['.']).data ≠ [])]
  apply String.ext
  show cleanCore ((dest ++ "/" ++ ⟨['.']⟩).data) = dest.data
  rw [dataJoin, hm]
  show cleanCore ('/' :: (m ++ '/' :: ['.'])) = '/' :: m
  rw [cleanCore, if_neg (by simp), if_pos (by simp)]
  have hsp : splitSlash ('/' :: (m ++ '/' :: ['.'])) = [] :: (splitSlash m ++ [['.']]) := by
    rw [splitSlash_cons_slash, splitSlash_append]
    rfl
  rw [validJoinL] at hmv
  rw [hsp, cleanLoop_skip true [] _ [] (Or.inl rfl), cleanLoop_valid_dot true (splitSlash m) [] hmv]
  simp [joinComps_splitSlash]

theorem isUnder_joinClean (dest p : String) (hd : absCleanDir dest = true)
    (hp : p = ⟨['.']⟩ ∨ validJoinL p.data = true) :
    isUnder dest (joinPath dest p) = true := by
  rcases hp with hp | hp
  · rw [hp, joinPath_dot dest hd]
    exact isUnder_self dest
  · rw [joinPath_absClean dest p hd hp]
    exact isUnder_join dest p hd hp

theorem extractEntry_checkFalse_ok (dest : String) (e : TarEntry)
    (hc : (hasPrefixStr (filepathClean e.name) ".."
      || isAbsPath (filepathClean e.name)) = false) :
    ∃ ops, extractEntry dest e = Except.ok ops := by
  rw [extractEntry, if_neg (by rw [hc]; simp)]
  by_cases h1 : e.typeflag = TypeDir
  · rw [if_pos h1]
    exact ⟨_, rfl⟩
  rw [if_neg h1]
  by_cases h2 : e.typeflag = TypeReg
  · rw [if_pos h2]
    exact ⟨_, rfl⟩
  rw [if_neg h2]
  by_cases h3 : e.typeflag = TypeSymlink
  · rw [if_pos h3]
    exact ⟨_, rfl⟩
  rw [if_neg h3]
  exact ⟨_, rfl⟩

theorem extractEntry_ops_under (dest : String) (e : TarEntry) (ops : List ExtractOp)
    (hd : absCleanDir dest = true) (h : extractEntry dest e = Except.ok ops) :
    ∀ op ∈ ops, op.isFileWrite = true → isUnder dest op.path = true := by
  by_cases hc : (hasPrefixStr (filepathClean e.name) ".."
      || isAbsPath (filepathClean e.name)) = true
  · rw [extractEntry, if_pos hc] at h
    exact absurd h (by simp)
  have hcf : (hasPrefixStr (filepathClean e.name) ".."
      || isAbsPath (filepathClean e.name)) = false := by
    cases hval : (hasPrefixStr (filepathClean e.name) ".."
      || isAbsPath (filepathClean e.name))
    · rfl
    · exact absurd hval hc
  have hor := Bool.or_eq_false_iff.mp hcf
  have hshape : filepathClean e.name = ⟨['.']⟩
      ∨ validJoinL (filepathClean e.name).data = true := by
    have hdd : startsDD (cleanCore e.name.data) = false := by
      have hh := hor.1
      rwa [hasPrefixDD_eq] at hh
    have habs : (cleanCore e.name.data).head? ≠ some '/' := by
      have hh := hor.2
      intro hcontra
      rw [show isAbsPath (filepathClean e.name)
        = ((cleanCore e.name.data).head? == some '/') from rfl, hcontra] at hh
      simp at hh
    rcases cleanCore_accepted e.name.data hdd habs with hcase | hcase
    · left
      exact String.ext hcase
    · right
      exact hcase
  have hunder : isUnder dest (joinPath dest (filepathClean e.name)) = true :=
    isUnder_joinClean dest (filepathClean e.name) hd hshape
  rw [extractEntry, if_neg (by rw [hcf]; simp)] at h
  by_cases h1 : e.typeflag = TypeDir
  · rw [if_pos h1] at h
    rw [← Except.ok.inj h]
    intro op hop hw
    simp only [List.mem_singleton] at hop
    rw [hop] at hw
    exact absurd hw (by simp [ExtractOp.isFileWrite])
  rw [if_neg h1] at h
  by_cases h2 : e.typeflag = TypeReg
  · rw [if_pos h2] at h
    rw [← Except.ok.inj h]
    intro op hop hw
    cases hop with
    | head => exact absurd hw (by simp [ExtractOp.isFileWrite])
    | tail _ hop2 =>
      cases hop2 with
      | head => exact hunder
      | tail _ hop3 => cases hop3
  rw [if_neg h2] at h
  by_cases h3 : e.typeflag = TypeSymlink
  · rw [if_pos h3] at h
    rw [← Except.ok.inj h]
    intro op hop hw
    cases hop with
    | head => exact absurd hw (by simp [ExtractOp.isFileWrite])
    | tail _ hop2 =>
      cases hop2 with
      | head => exact hunder
      | tail _ hop3 =>
        cases hop3 with
        | head => exact hunder
        | tail _ hop4 => cases hop4
  rw [if_neg h3] at h
  rw [← Except.ok.inj h]
  intro op hop
  simp at hop

theorem extractEntries_ops_under (dest : String) (hd : absCleanDir dest = true)
    (es : List TarEntry)
    (hall : ∀ e ∈ es, (hasPrefixStr (filepathClean e.name) ".."
      || isAbsPath (filepathClean e.name)) = false) :
    ∀ op ∈ (extractEntries dest es).1, op.isFileWrite = true
      → isUnder dest op.path = true := by
  induction es with
  | nil =>
    intro op hop
    simp [extractEntries] at hop
  | cons e rest ih =>
    intro op hop hw
    obtain ⟨ops, hops⟩ := extractEntry_checkFalse_ok dest e (hall e (by simp))
    rw [extractEntries_cons_ok dest e rest ops hops] at hop
    rcases List.mem_append.mp hop with hmem | hmem
    · exact extractEntry_ops_under dest e ops hd hops op hmem hw
    · exact ih (fun x hx => hall x (by simp [hx])) op hmem hw

theorem extractEntries_firstBad (dest : String) (pre post : List TarEntry) (bad : TarEntry)
    (hpre : ∀ e ∈ pre, (hasPrefixStr (filepathClean e.name) ".."
        || isAbsPath (filepathClean e.name)) = false)
    (hbadcheck : (hasPrefixStr (filepathClean bad.name) ".."
        || isAbsPath (filepathClean bad.name)) = true) :
    extractEntries dest (pre ++ bad :: post)
      = ((extractEntries dest pre).1,
        some ("invalid path in archive: " ++ bad.name)) := by
  induction pre with
  | nil =>
    have hb : extractEntry dest bad
        = Except.error ("invalid path in archive: " ++ bad.name) := by
      rw [extractEntry, if_pos hbadcheck]
    simp [extractEntries, hb]
  | cons e pre2 ih =>
    obtain ⟨ops, hops⟩ := extractEntry_checkFalse_ok dest e (hpre e (by simp))
    rw [List.cons_append, extractEntries_cons_ok dest e _ ops hops,
      ih (fun x hx => hpre x (by simp [hx])), extractEntries_cons_ok dest e pre2 ops hops]

/-- C3: if the tar stream decodes to a list of entries in which every entry
before some entry `bad` passes the path check and the cleaned path of `bad`
is a parent-directory escape (the path dot-dot or a path with the
dot-dot-slash prefix) or an absolute path, then extraction aborts at `bad`
with the path-traversal error, having performed only the writes of the
earlier entries and none for `bad`, and every file, removal or symlink
write performed lies inside the destination directory. -/
theorem extract_rejects_traversal (c : TarGzCodec) (data : List Nat) (destDir : String)
    (pre post : List TarEntry) (bad : TarEntry)
    (hdec : c.dec data = some (pre ++ bad :: post))
    (hdest : absCleanDir destDir = true)
    (hpre : ∀ e ∈ pre, (hasPrefixStr (filepathClean e.name) ".."
        || isAbsPath (filepathClean e.name)) = false)
    (hbad : filepathClean bad.name = ".."
        ∨ hasPrefixStr (filepathClean bad.name) "../" = true
        ∨ isAbsPath (filepathClean bad.name) = true) :
    ExtractArchive c data destDir
      = ((extractEntries destDir pre).1,
          some ("invalid path in archive: " ++ bad.name))
    ∧ ∀ op ∈ (extractEntries destDir pre).1,
        ExtractOp.isFileWrite op = true → isUnder destDir op.path = true := by
  have hbadcheck : (hasPrefixStr (filepathClean bad.name) ".."
      || isAbsPath (filepathClean bad.name)) = true := by
    rcases hbad with hb | hb | hb
    · have h1 : hasPrefixStr (filepathClean bad.name) ".." = true := by
        rw [hb]
        decide
      rw [h1, Bool.true_or]
    · have h3 : ['.', '.', '/'] <+: (filepathClean bad.name).data :=
        List.isPrefixOf_iff_prefix.mp hb
      have h2 : ['.', '.'] <+: (filepathClean bad.name).data :=
        List.IsPrefix.trans (by decide) h3
      have h1 : hasPrefixStr (filepathClean bad.name) ".." = true :=
        List.isPrefixOf_iff_prefix.mpr h2
      rw [h1, Bool.true_or]
    · rw [hb, Bool.or_true]
  constructor
  · rw [ExtractArchive, hdec]
    exact extractEntries_firstBad destDir pre post bad hpre hbadcheck
  · exact extractEntries_ops_under destDir hdest pre hpre

/-- Witness for C3: a well-formed first entry is extracted, then the
traversal entry aborts the run. -/
theorem extract_rejects_traversal_witness :
    ExtractArchive mockCodec
        (mockCodec.enc [⟨"ok.txt", TypeReg, 420, [1], ""⟩,
          ⟨"../../etc/passwd", TypeReg, 420, [2], ""⟩]) "/h/dest"
      = ((extractEntries "/h/dest" [⟨"ok.txt", TypeReg, 420, [1], ""⟩]).1,
         some ("invalid path in archive: " ++ "../../etc/passwd")) :=
  (extract_rejects_traversal mockCodec _ "/h/dest"
    [⟨"ok.txt", TypeReg, 420, [1], ""⟩] [] ⟨"../../etc/passwd", TypeReg, 420, [2], ""⟩
    (mockCodec.dec_enc _) (by decide) (by decide)
    (Or.inr (Or.inl (by decide)))).1

/-! ## C7, C9: the orchestrator `Encrypt` and `Decrypt` (cloak.go 267-442)

The effectful steps are supplied by an environment: `os.Stat`,
`filepath.Abs`, the password prompts, `GenerateRandomBytes`, the
filesystem walk of `ArchiveDirectory`, `os.ReadFile` and `os.Create`.
The runs return, besides the result, an event trace (prompts and file
creation) and the final contents of the plaintext archive buffer. -/

/-- `strings.TrimSuffix` (cloak.go line 280): drop the suffix once when
present. -/
def trimSuffixStr (s suf : String) : String :=
  if suf.data.isSuffixOf s.data then ⟨s.data.take (s.data.length - suf.data.length)⟩
  else s

/-- The environment of one orchestrator call. -/
structure World where
  stat : String → Option Bool
  absPath : String → String
  readPassword : Nat → Except String (List Nat)
  randomBytes : Nat → Nat → Except String (List Nat)
  archiveResult : Except String (List Nat)
  readFileData : Option (List Nat)
  createOk : Bool

/-- Externally visible events of `Encrypt`. -/
inductive EncEvent where
  | promptPassword
  | createFile (path : String)
  | writeOut (bytes : List Nat)
deriving DecidableEq

/-- The derived output path (cloak.go line 280). -/
def outputPathOf (w : World) (folderPath : String) : String :=
  trimSuffixStr (w.absPath folderPath) "/" ++ ".cloak"

/-- `Encrypt` (cloak.go lines 267-364) over an environment: validations,
two password prompts, constant-time confirmation compare, archive, salt
and nonce generation, key derivation, encryption, the zero loop over the
archive buffer (lines 331-333), output creation and the five writes
(modelled as one event carrying the container bytes). The third component
is the archive buffer contents at return. -/
def EncryptRun (G : AEAD) (A : Argon2) (w : World) (folderPath : String) :
    Except String Unit × List EncEvent × List Nat :=
  match w.stat folderPath with
  | none => (Except.error "cannot access folder", [], [])
  | some isDir =>
    if !isDir then (Except.error "path is not a directory", [], [])
    else
      match w.stat (outputPathOf w folderPath) with
      | some _ =>
        (Except.error ("output file already exists: " ++ outputPathOf w folderPath), [], [])
      | none =>
        match w.readPassword 0 with
        | Except.error e => (Except.error e, [EncEvent.promptPassword], [])
        | Except.ok password =>
          match w.readPassword 1 with
          | Except.error e =>
            (Except.error e, [EncEvent.promptPassword, EncEvent.promptPassword], [])
          | Except.ok confirm =>
            if password ≠ confirm then
              (Except.error "passwords do not match",
                [EncEvent.promptPassword, EncEvent.promptPassword], [])
            else
              match w.archiveResult with
              | Except.error e =>
                (Except.error ("failed to archive directory: " ++ e),
                  [EncEvent.promptPassword, EncEvent.promptPassword], [])
              | Except.ok archive =>
                match w.randomBytes 0 SaltSize with
                | Except.error e =>
                  (Except.error e,
                    [EncEvent.promptPassword, EncEvent.promptPassword], archive)
                | Except.ok salt =>
                  match w.randomBytes 1 NonceSize with
                  | Except.error e =>
                    (Except.error e,
                      [EncEvent.promptPassword, EncEvent.promptPassword], archive)
                  | Except.ok nonce =>
                    match EncryptData G archive (DeriveKey A password salt) nonce with
                    | Except.error e =>
                      (Except.error e,
                        [EncEvent.promptPassword, EncEvent.promptPassword], archive)
                    | Except.ok ciphertext =>
                      if !w.createOk then
                        (Except.error "failed to create output file",
                          [EncEvent.promptPassword, EncEvent.promptPassword,
                            EncEvent.createFile (outputPathOf w folderPath)],
                          List.replicate archive.length 0)
                      else
                        (Except.ok (),
                          [EncEvent.promptPassword, EncEvent.promptPassword,
                            EncEvent.createFile (outputPathOf w folderPath),
                            EncEvent.writeOut (encodeContainer salt nonce ciphertext)],
                          List.replicate archive.length 0)

/-- `Decrypt` (cloak.go lines 367-442) over an environment. The second
component is the decrypted archive buffer contents at return: the zero
loop of lines 436-438 runs only after a successful extraction, while the
early return at line 433 leaves the buffer as decrypted. -/
def DecryptRun (G : AEAD) (A : Argon2) (c : TarGzCodec) (w : World) (filePath : String) :
    Except String Unit × List Nat :=
  match w.stat filePath with
  | none => (Except.error "cannot access file", [])
  | some isDir =>
    if isDir then (Except.error "path is a directory, expected encrypted file", [])
    else
      match w.readFileData with
      | none => (Except.error "failed to read file", [])
      | some data =>
        match decodeContainer data with
        | Except.error e => (Except.error e, [])
        | Except.ok (salt, nonce, ciphertext) =>
          match w.readPassword 0 with
          | Except.error e => (Except.error e, [])
          | Except.ok password =>
            match DecryptData G ciphertext (DeriveKey A password salt) nonce with
            | Except.error e => (Except.error e, [])
            | Except.ok archive =>
              match ExtractArchive c archive (parentDir (w.absPath filePath)) with
              | (_, some e) =>
                (Except.error ("failed to extract archive: " ++ e), archive)
              | (_, none) => (Except.ok (), List.replicate archive.length 0)

/-- C9: the output path is the absolute folder path with a trailing
separator trimmed plus the literal ".cloak"; when the folder does not
exist, is not a directory, or a file already exists at the derived output
path, Encrypt returns an error with an empty event trace — so no output
file was created and no password was requested, the validations coming
first; and on a fully successful run the only file created is at the
derived output path. -/
theorem encrypt_validation (G : AEAD) (A : Argon2) (w : World) (path : String) :
    outputPathOf w path = trimSuffixStr (w.absPath path) "/" ++ ".cloak"
    ∧ (w.stat path = none →
        EncryptRun G A w path = (Except.error "cannot access folder", [], []))
    ∧ (w.stat path = some false →
        EncryptRun G A w path = (Except.error "path is not a directory", [], []))
    ∧ (∀ b2, w.stat path = some true → w.stat (outputPathOf w path) = some b2 →
        EncryptRun G A w path
          = (Except.error ("output file already exists: " ++ outputPathOf w path), [], []))
    ∧ (∀ password archive salt nonce,
        w.stat path = some true → w.stat (outputPathOf w path) = none →
        w.readPassword 0 = Except.ok password → w.readPassword 1 = Except.ok password →
        w.archiveResult = Except.ok archive →
        w.randomBytes 0 SaltSize = Except.ok salt →
        w.randomBytes 1 NonceSize = Except.ok nonce →
        w.createOk = true →
        EncryptRun G A w path
          = (Except.ok (),
            [EncEvent.promptPassword, EncEvent.promptPassword,
              EncEvent.createFile (outputPathOf w path),
              EncEvent.writeOut (encodeContainer salt nonce
                (G.sealOp (DeriveKey A password salt) nonce archive))],
            List.replicate archive.length 0)) := by
  refine ⟨rfl, ?_, ?_, ?_, ?_⟩
  · intro h
    rw [EncryptRun, h]
  · intro h
    rw [EncryptRun, h]
    rfl
  · intro b2 h1 h2
    rw [EncryptRun, h1]
    simp only [Bool.not_true, Bool.false_eq_true, if_false, h2]
  · intro password archive salt nonce h1 h2 h3 h4 h5 h6 h7 h8
    have hk : (DeriveKey A password salt).length = 32 :=
      A.idKey_len password salt argonTime argonMemory argonThreads KeySize
    have hvk : validKeyLen (DeriveKey A password salt) = true := by simp [validKeyLen, hk]
    have henc : EncryptData G archive (DeriveKey A password salt) nonce
        = Except.ok (G.sealOp (DeriveKey A password salt) nonce archive) := by
      rw [EncryptData, if_pos hvk]
    rw [EncryptRun, h1]
    simp only [h2, h3, h4, h5, h6, h7, h8, henc]
    simp

/-- Witness for C9: a world where the folder does not exist. -/
theorem encrypt_validation_witness :
    EncryptRun mockAEAD mockArgon
      ⟨fun _ => none, id, fun _ => Except.error "no tty", fun _ _ => Except.ok [],
        Except.ok [], none, true⟩ "/x"
      = (Except.error "cannot access folder", [], []) :=
  (encrypt_validation mockAEAD mockArgon
    ⟨fun _ => none, id, fun _ => Except.error "no tty", fun _ _ => Except.ok [],
      Except.ok [], none, true⟩ "/x").2.1 rfl

/-- The plaintext blob of the C7 failing input: it decodes to one archive
entry whose path escapes, so extraction fails. -/
def c7Blob : List Nat := mockEnc [⟨"../x", TypeReg, 420, [7], ""⟩]

/-- The container of the C7 failing input, built for the all-zero mock key. -/
def c7Data : List Nat :=
  encodeContainer (List.replicate 32 1) (List.replicate 12 2)
    (mockSeal (List.replicate 32 0) (List.replicate 12 2) c7Blob)

/-- The environment of the C7 failing input. -/
def c7World : World where
  stat := fun s => if s = "/h/secret.cloak" then some false else none
  absPath := id
  readPassword := fun _ => Except.ok [112]
  randomBytes := fun _ _ => Except.ok []
  archiveResult := Except.ok []
  readFileData := some c7Data
  createOk := true

/-- C7 fails on the code: at this concrete input the container decodes and
decrypts successfully into a nonzero plaintext archive buffer, extraction
fails on a traversal entry, and Decrypt returns the extraction error with
the archive buffer still holding the plaintext — not zeroed, contradicting
the claim that the buffer is zero after ExtractArchive is called whether
extraction succeeds or fails. -/
theorem decrypt_leaves_plaintext_on_extract_failure :
    DecryptRun mockAEAD mockArgon mockCodec c7World "/h/secret.cloak"
      = (Except.error ("failed to extract archive: "
          ++ "invalid path in archive: ../x"), c7Blob)
    ∧ c7Blob ≠ List.replicate c7Blob.length 0 :=
  ⟨rfl, by decide⟩

end Cloak
